import Mathlib

/-!
Verification of the deck-statistics report generator (`src/main.rs`) against
its natural-language specification.

The program is shallowly embedded: strings are `List Char`, the fallible
steps (state-code classification, field addressing in the fragment
renderer) return `Option`, and the `f64` learned-percentage is modelled as
`Option ℚ` where `none` stands for the IEEE NaN produced by `0.0 / 0.0`
(the only non-finite value reachable here, since `learned ≤ total`).
All definitions are computable so that concrete witnesses evaluate.
-/

set_option maxHeartbeats 1000000

set_option linter.unusedVariables false

/-- The review-scheduling state of a card, `enum Queue` in the source. -/
inductive Queue where
  | New : Queue
  | Learning : Queue
  | Review : Queue
deriving DecidableEq, Repr

/-- `impl TryFrom<u8> for Queue` from the source: the classification of the
raw state code.  `none` models `Err(())` (surfaced in `main` via `.expect`). -/
def queueTryFrom (value : Nat) : Option Queue :=
  match value with
  | 0 => some Queue.New
  | 1 => some Queue.Learning
  | 3 => some Queue.Learning
  | 2 => some Queue.Review
  | _ => none

/-- `Queue::class` from the source (named `queueClass` here because `class`
is a reserved word in Lean). -/
def queueClass : Queue → List Char
  | Queue.New => ("new").data
  | Queue.Learning => ("learning").data
  | Queue.Review => ("review").data

/-- One raw row as handed to the row-mapping closure in `main`: the note's
`flds` string, the card's queue code (a `u8`), and the two counters. -/
structure RawRecord where
  flds : List Char
  queue : Nat
  reps : Nat
  lapses : Nat

/-- `struct Card` from the source. -/
structure Card where
  fields : List (List Char)
  queue : Queue
  reps : Nat
  lapses : Nat
deriving DecidableEq

/-- The field separator used in `flds`, `'\x1f'` in the source. -/
def sepChar : Char := Char.ofNat 31

/-- Rust's `str::split(sep)` on a character pattern: the ordered sequence of
(possibly empty) substrings between separator occurrences. -/
def splitOnChar (sep : Char) : List Char → List (List Char)
  | [] => [[]]
  | c :: rest =>
    match splitOnChar sep rest with
    | [] => [[]]
    | f :: fs => if c = sep then [] :: f :: fs else (c :: f) :: fs

/-- Joining a field sequence back with the separator (the inverse direction
of the round-trip law; the program itself only splits). -/
def joinSep (sep : Char) : List (List Char) → List Char
  | [] => []
  | [f] => f
  | f :: g :: fs => f ++ sep :: joinSep sep (g :: fs)

/-- The row-mapping closure in `main` (lines 80–94 of the source): split the
`flds` string on `'\x1f'`, classify the queue code, pass the counters
through.  `none` models the `.expect` panic on an unknown queue code.  Note
that this step performs no field-count check. -/
def extractCard (r : RawRecord) : Option Card :=
  match queueTryFrom r.queue with
  | some q => some ⟨splitOnChar sepChar r.flds, q, r.reps, r.lapses⟩
  | none => none

/-- Fuel-driven decimal rendering of a natural number (the fuel makes the
definition structurally recursive, hence kernel-evaluable). -/
def natCharsGo : Nat → Nat → List Char
  | 0, _ => []
  | fuel + 1, n =>
    if n < 10 then [Char.ofNat (48 + n)]
    else natCharsGo fuel (n / 10) ++ [Char.ofNat (48 + n % 10)]

/-- Plain decimal rendering, Rust's `Display` for unsigned integers (used by
the console summary and by `format!` for `reps`/`lapses`). -/
def natChars (n : Nat) : List Char := natCharsGo (n + 1) n

/-- Comma-grouping of a digit list given least-significant digit first:
groups of three separated by `','`. -/
def groupRev : List Char → List Char
  | [] => []
  | [a] => [a]
  | [a, b] => [a, b]
  | [a, b, c] => [a, b, c]
  | a :: b :: c :: d :: rest => a :: b :: c :: ',' :: groupRev (d :: rest)

/-- `n.to_formatted_string(&num_format::Locale::en)` from the source:
decimal digits with English-locale thousands separators. -/
def formatEn (n : Nat) : List Char := (groupRev (natChars n).reverse).reverse

/-- ASCII control characters (the class the round-trip law's side condition
speaks about; the separator `'\x1f'` is one of them). -/
def isCtrlChar (c : Char) : Bool := c.val < 32 || c.val == 127

/-- The statistics loop of `main` (lines 96–105): `n_cards` is incremented
once per card, `n_learned` once per card in the `Review` queue.  The result
is the pair `(n_cards, n_learned)`. -/
def aggregate (cards : List Card) : Nat × Nat :=
  cards.foldl
    (fun acc c => (acc.1 + 1, if c.queue = Queue.Review then acc.2 + 1 else acc.2))
    (0, 0)

/-- `n_learned as f64 / n_cards as f64 * 100.0` (line 126).  The `f64` value
is modelled as `Option ℚ`: for `n_cards = 0` the program divides `0.0` by
`0.0` (aggregation forces `n_learned = 0` then) and obtains NaN, modelled as
`none`; otherwise the quotient is exact. -/
def learnedPercentage (n_learned n_cards : Nat) : Option ℚ :=
  if n_cards = 0 then none else some ((n_learned : ℚ) / (n_cards : ℚ) * 100)

/-- Round to the nearest integer, ties to even — the rounding Rust's float
formatting performs for `{:.2}` at the hundredths digit. -/
def roundHE (x : ℚ) : Int :=
  let f : Int := Int.floor x
  let r : ℚ := x - (f : ℚ)
  if r < 1 / 2 then f
  else if 1 / 2 < r then f + 1
  else if f % 2 = 0 then f else f + 1

/-- `format!` with two fractional digits applied to a finite float value. -/
def fmtFixed2 (q : ℚ) : List Char :=
  let n : Int := roundHE (q * 100)
  let m : Nat := n.natAbs
  (if n < 0 then [Char.ofNat 45] else []) ++
    natChars (m / 100) ++ [Char.ofNat 46] ++
    (if m % 100 < 10 then [Char.ofNat 48] else []) ++ natChars (m % 100)

/-- `format!` with two fractional digits applied to the modelled `f64`
percentage; Rust renders the NaN obtained for an empty deck as `"NaN"`. -/
def prettyPct : Option ℚ → List Char
  | none => ("NaN").data
  | some q => fmtFixed2 q

/-- The console summary line (lines 127–130): counts in plain decimal. -/
def consoleLine (n_learned n_cards : Nat) (pct : Option ℚ) : List Char :=
  ("learned ").data ++ natChars n_learned ++ ("/").data ++ natChars n_cards ++
    (" (").data ++ prettyPct pct ++ ("%)").data

/-- The token map built in `main` (lines 132–146), as an association list;
the `HashMap` iterates in an unspecified order, so any permutation of this
list may be the order in which tokens are applied to the template. -/
def buildTokens (n_learned n_cards : Nat) (pct : Option ℚ)
    (cardsHtml : List Char) (now : List Char) : List (List Char × List Char) :=
  [ (("n_learned").data, formatEn n_learned),
    (("n_cards").data, formatEn n_cards),
    (("learned_percentage_pretty").data, prettyPct pct),
    (("cards").data, cardsHtml),
    (("now").data, now) ]

/-! The HTML fragment literal from lines 107–123 of the source, cut at the
interpolation points.  A backslash before a newline in a Rust string literal
elides the newline and the following indentation; the newlines after
`</div>` (line 111), `reviews: {reps}<br/>` and `lapses: {lapses}<br/>` have
no backslash, so those newlines and the next lines' indentation are part of
the literal. -/

def fragA : List Char := ("<a href='https://jisho.org/search/").data

def fragB : List Char := ("' class='card-link'><div class='card card-").data

def fragC : List Char := ("'>").data

def fragD : List Char := ("<div class='card-hover'><div class='card-meaning'>").data

def fragE : List Char := ("; ").data

def fragF : List Char := ("</div>\n                        reviews: ").data

def fragG : List Char := ("<br/>\n                        lapses: ").data

def fragH : List Char := ("<br/>\n                    </div></div></a>\n").data

/-- One loop iteration's `format!` (lines 107–123): the HTML fragment for a
single card.  The source indexes `card.fields[0]`, `[1]`, `[2]` directly;
an out-of-bounds index panics, modelled by `none` when the card has fewer
than 3 fields. -/
def renderCard (c : Card) : Option (List Char) :=
  match c.fields with
  | f0 :: f1 :: f2 :: _ =>
    some (fragA ++ f0 ++ fragB ++ queueClass c.queue ++ fragC ++ f0 ++
      fragD ++ f1 ++ fragE ++ f2 ++ fragF ++ natChars c.reps ++
      fragG ++ natChars c.lapses ++ fragH)
  | _ => none

/-- The accumulated `cards` string: one fragment per card, appended by
`push_str` in input order; `none` if any iteration panics. -/
def renderCards : List Card → Option (List Char)
  | [] => some []
  | c :: rest =>
    match renderCard c, renderCards rest with
    | some f, some r => some (f ++ r)
    | _, _ => none

/-- `p` is a leading piece of `s` (Boolean, structural). -/
def leadsWith : List Char → List Char → Bool
  | [], _ => true
  | _ :: _, [] => false
  | a :: as, b :: bs => a == b && leadsWith as bs

/-- `p` occurs as a contiguous run somewhere in `s` (Boolean, structural). -/
def occursIn (p : List Char) : List Char → Bool
  | [] => p.isEmpty
  | c :: rest => leadsWith p (c :: rest) || occursIn p rest

/-- Fuel-driven worker for `str::replace`: scan left to right, replace each
leftmost non-overlapping occurrence of `p` by `v`, never rescanning the
replacement.  The fuel makes the recursion structural. -/
def replaceAllGo (fuel : Nat) (p v : List Char) (s : List Char) : List Char :=
  match fuel, s with
  | _, [] => []
  | 0, s => s
  | fuel + 1, c :: rest =>
    match p with
    | [] => c :: rest
    | p0 :: pr =>
      if leadsWith (p0 :: pr) (c :: rest)
      then v ++ replaceAllGo fuel (p0 :: pr) v (rest.drop pr.length)
      else c :: replaceAllGo fuel (p0 :: pr) v rest

/-- Rust's `str::replace(p, v)` (total: `s.length` fuel always suffices). -/
def replaceAll (p v s : List Char) : List Char := replaceAllGo s.length p v s

/-- The search pattern `format!` builds from a token name on line 151 of
the source: `'{'` + name + `'}'`. -/
def tokenPat (n : List Char) : List Char :=
  Char.ofNat 123 :: (n ++ [Char.ofNat 125])

/-- The substitution loop of `main` (lines 150–152): for each `(token,
value)` pair, in iteration order, replace every occurrence of the token's
pattern by the value. -/
def applyTokens (tokens : List (List Char × List Char)) (doc : List Char) : List Char :=
  tokens.foldl (fun d nv => replaceAll (tokenPat nv.1) nv.2 d) doc

/-- A structured view of a template document: literal text interleaved with
placeholders.  `flatten` recovers the document text. -/
inductive Chunk where
  | lit : List Char → Chunk
  | hole : List Char → Chunk
deriving DecidableEq, Repr

/-- The document text a structured template denotes. -/
def flatten : List Chunk → List Char
  | [] => []
  | Chunk.lit s :: rest => s ++ flatten rest
  | Chunk.hole n :: rest => Char.ofNat 123 :: (n ++ Char.ofNat 125 :: flatten rest)

/-- Well-formedness of one chunk: literal text opens no placeholder, and a
placeholder name contains neither brace. -/
def chunkWF : Chunk → Prop
  | Chunk.lit s => Char.ofNat 123 ∉ s
  | Chunk.hole n => Char.ofNat 123 ∉ n ∧ Char.ofNat 125 ∉ n

/-- Well-formedness of a structured template. -/
def tplWF (tpl : List Chunk) : Prop := ∀ c ∈ tpl, chunkWF c

/-- Well-formedness of one token-map entry: the name contains no brace and
the value opens no placeholder. -/
def tokWF (nv : List Char × List Char) : Prop :=
  (Char.ofNat 123 ∉ nv.1 ∧ Char.ofNat 125 ∉ nv.1) ∧ Char.ofNat 123 ∉ nv.2

instance : DecidablePred chunkWF := by
  intro c
  cases c with
  | lit s => exact inferInstanceAs (Decidable (_ ∉ _))
  | hole n => exact inferInstanceAs (Decidable (_ ∧ _))

instance (tpl : List Chunk) : Decidable (tplWF tpl) :=
  inferInstanceAs (Decidable (∀ c ∈ tpl, chunkWF c))

instance (nv : List Char × List Char) : Decidable (tokWF nv) :=
  inferInstanceAs
    (Decidable ((Char.ofNat 123 ∉ nv.1 ∧ Char.ofNat 125 ∉ nv.1) ∧ Char.ofNat 123 ∉ nv.2))

/-- Substituting one token into the structured template: each placeholder
with the token's name becomes the literal value. -/
def substOne (m v : List Char) (tpl : List Chunk) : List Chunk :=
  tpl.map fun c =>
    match c with
    | Chunk.hole n => if n = m then Chunk.lit v else Chunk.hole n
    | c => c

/-- Simultaneous substitution of a whole token map into the structured
template: a placeholder whose name the map binds becomes the (first) bound
value, every other placeholder stays. -/
def substMap (tokens : List (List Char × List Char)) (tpl : List Chunk) : List Chunk :=
  tpl.map fun c =>
    match c with
    | Chunk.hole n =>
      match List.lookup n tokens with
      | some v => Chunk.lit v
      | none => Chunk.hole n
    | c => c

theorem splitOnChar_ne_nil (sep : Char) (s : List Char) : splitOnChar sep s ≠ [] := by
  cases s with
  | nil => simp [splitOnChar]
  | cons c rest =>
    simp only [splitOnChar]
    cases h : splitOnChar sep rest with
    | nil => simp
    | cons f fs =>
      by_cases hc : c = sep <;> simp [hc]

theorem joinSep_splitOnChar (sep : Char) (s : List Char) :
    joinSep sep (splitOnChar sep s) = s := by
  induction s with
  | nil => rfl
  | cons c rest ih =>
    simp only [splitOnChar]
    cases h : splitOnChar sep rest with
    | nil => exact absurd h (splitOnChar_ne_nil sep rest)
    | cons f fs =>
      rw [h] at ih
      by_cases hc : c = sep
      · subst hc
        simp only [if_pos rfl]
        cases fs with
        | nil => simpa [joinSep] using ih
        | cons g gs => simpa [joinSep] using ih
      · simp only [if_neg hc]
        cases fs with
        | nil => simpa [joinSep] using ih
        | cons g gs => simpa [joinSep] using ih

theorem replaceAllGo_fuel_eq (p v : List Char) :
    ∀ f₁ f₂ s, s.length ≤ f₁ → s.length ≤ f₂ →
      replaceAllGo f₁ p v s = replaceAllGo f₂ p v s := by
  intro f₁
  induction f₁ with
  | zero =>
    intro f₂ s h₁ h₂
    have : s = [] := List.eq_nil_of_length_eq_zero (Nat.le_zero.mp h₁)
    subst this
    cases f₂ <;> rfl
  | succ f ih =>
    intro f₂ s h₁ h₂
    cases s with
    | nil => cases f₂ <;> rfl
    | cons c rest =>
      cases f₂ with
      | zero => exact absurd h₂ (by simp)
      | succ f' =>
        simp only [replaceAllGo]
        cases p with
        | nil => rfl
        | cons p0 pr =>
          have hr : rest.length ≤ f := Nat.le_of_succ_le_succ h₁
          have hr' : rest.length ≤ f' := Nat.le_of_succ_le_succ h₂
          by_cases hl : leadsWith (p0 :: pr) (c :: rest) = true
          · simp only [if_pos hl]
            have hd : (rest.drop pr.length).length ≤ f := by
              simpa using Nat.le_trans (Nat.sub_le _ _) hr
            have hd' : (rest.drop pr.length).length ≤ f' := by
              simpa using Nat.le_trans (Nat.sub_le _ _) hr'
            rw [ih f' _ hd hd']
          · simp only [if_neg hl]
            rw [ih f' rest hr hr']

theorem replaceAll_nil_pat (v s : List Char) : replaceAll [] v s = s := by
  cases s <;> rfl

theorem replaceAll_nil (p v : List Char) : replaceAll p v [] = [] := by
  cases p <;> rfl

theorem replaceAll_cons (p0 : Char) (pr v : List Char) (c : Char) (rest : List Char) :
    replaceAll (p0 :: pr) v (c :: rest) =
      if leadsWith (p0 :: pr) (c :: rest)
      then v ++ replaceAll (p0 :: pr) v (rest.drop pr.length)
      else c :: replaceAll (p0 :: pr) v rest := by
  show replaceAllGo (rest.length + 1) _ _ _ = _
  simp only [replaceAllGo]
  by_cases hl : leadsWith (p0 :: pr) (c :: rest) = true
  · simp only [if_pos hl]
    rw [replaceAllGo_fuel_eq (p0 :: pr) v rest.length (rest.drop pr.length).length
      (rest.drop pr.length) (by simp) (Nat.le_refl _)]
    rfl
  · simp only [if_neg hl]
    rfl

theorem leadsWith_self_append (p t : List Char) : leadsWith p (p ++ t) = true := by
  induction p with
  | nil => rfl
  | cons a as ih => simp [leadsWith, ih]

theorem leadsWith_head_ne {a b : Char} (h : a ≠ b) (as bs : List Char) :
    leadsWith (a :: as) (b :: bs) = false := by
  simp [leadsWith, h]

theorem replaceAll_append_not_mem (p0 : Char) (pr v : List Char) {s : List Char}
    (hs : p0 ∉ s) (t : List Char) :
    replaceAll (p0 :: pr) v (s ++ t) = s ++ replaceAll (p0 :: pr) v t := by
  induction s with
  | nil => rfl
  | cons c cs ih =>
    have hc : p0 ≠ c := fun h => hs (h ▸ List.mem_cons_self c cs)
    have hcs : p0 ∉ cs := fun h => hs (List.mem_cons_of_mem c h)
    rw [List.cons_append, replaceAll_cons,
      if_neg (by simp [leadsWith_head_ne hc]), ih hcs]
    rfl

theorem occursIn_cons (p : List Char) (c : Char) (rest : List Char) :
    occursIn p (c :: rest) = (leadsWith p (c :: rest) || occursIn p rest) := rfl

theorem replaceAll_of_not_occurs {p : List Char} (v : List Char) {s : List Char}
    (h : occursIn p s = false) : replaceAll p v s = s := by
  induction s with
  | nil =>
    cases p with
    | nil => rfl
    | cons p0 pr => rfl
  | cons c rest ih =>
    rw [occursIn_cons, Bool.or_eq_false_iff] at h
    cases p with
    | nil => exact replaceAll_nil_pat v _
    | cons p0 pr =>
      rw [replaceAll_cons, if_neg (by simp [h.1]), ih h.2]

theorem replaceAll_head_match (p0 : Char) (pr v t : List Char) :
    replaceAll (p0 :: pr) v ((p0 :: pr) ++ t) = v ++ replaceAll (p0 :: pr) v t := by
  rw [List.cons_append, replaceAll_cons,
    if_pos (by rw [← List.cons_append]; exact leadsWith_self_append _ _)]
  congr 1
  congr 1
  exact List.drop_left pr t

theorem leadsWith_name_ne {m n : List Char} (t : List Char)
    (hm : Char.ofNat 125 ∉ m) (hn : Char.ofNat 125 ∉ n) (hne : m ≠ n) :
    leadsWith (m ++ [Char.ofNat 125]) (n ++ Char.ofNat 125 :: t) = false := by
  induction m generalizing n with
  | nil =>
    cases n with
    | nil => exact absurd rfl hne
    | cons b bs =>
      have hb : Char.ofNat 125 ≠ b := fun h => hn (h ▸ List.mem_cons_self b bs)
      simpa using leadsWith_head_ne hb [] (bs ++ Char.ofNat 125 :: t)
  | cons a as ih =>
    have ha : a ≠ Char.ofNat 125 := fun h => hm (h ▸ List.mem_cons_self a as)
    cases n with
    | nil => simpa using leadsWith_head_ne ha (as ++ [Char.ofNat 125]) t
    | cons b bs =>
      by_cases hab : a = b
      · subst hab
        have hm' : Char.ofNat 125 ∉ as := fun h => hm (List.mem_cons_of_mem a h)
        have hn' : Char.ofNat 125 ∉ bs := fun h => hn (List.mem_cons_of_mem a h)
        have hne' : as ≠ bs := fun h => hne (h ▸ rfl)
        simpa [leadsWith] using ih hm' hn' hne'
      · simpa using leadsWith_head_ne hab (as ++ [Char.ofNat 125]) (bs ++ Char.ofNat 125 :: t)


theorem flatten_hole (n : List Char) (rest : List Chunk) :
    flatten (Chunk.hole n :: rest) = tokenPat n ++ flatten rest := by
  simp [flatten, tokenPat]

theorem tplWF_cons {c : Chunk} {tpl : List Chunk} (h : tplWF (c :: tpl)) :
    chunkWF c ∧ tplWF tpl :=
  ⟨h c (List.mem_cons_self c tpl), fun d hd => h d (List.mem_cons_of_mem c hd)⟩

theorem char123_ne_char125 : Char.ofNat 123 ≠ Char.ofNat 125 := by decide

theorem replaceAll_flatten {m : List Char} (v : List Char)
    (hm : Char.ofNat 125 ∉ m) :
    ∀ tpl : List Chunk, tplWF tpl →
      replaceAll (tokenPat m) v (flatten tpl) = flatten (substOne m v tpl) := by
  intro tpl
  induction tpl with
  | nil => intro _; exact replaceAll_nil _ _
  | cons c rest ih =>
    intro hw
    obtain ⟨hc, hrest⟩ := tplWF_cons hw
    cases c with
    | lit s =>
      have hs : Char.ofNat 123 ∉ s := hc
      show replaceAll (tokenPat m) v (s ++ flatten rest) =
        flatten (substOne m v (Chunk.lit s :: rest))
      have step : replaceAll (Char.ofNat 123 :: (m ++ [Char.ofNat 125])) v (s ++ flatten rest) =
          s ++ replaceAll (Char.ofNat 123 :: (m ++ [Char.ofNat 125])) v (flatten rest) :=
        replaceAll_append_not_mem _ _ _ hs _
      rw [show tokenPat m = Char.ofNat 123 :: (m ++ [Char.ofNat 125]) from rfl, step]
      rw [show Char.ofNat 123 :: (m ++ [Char.ofNat 125]) = tokenPat m from rfl, ih hrest]
      rfl
    | hole n =>
      by_cases hnm : n = m
      · subst hnm
        rw [flatten_hole]
        have step : replaceAll (Char.ofNat 123 :: (n ++ [Char.ofNat 125])) v
            ((Char.ofNat 123 :: (n ++ [Char.ofNat 125])) ++ flatten rest) =
            v ++ replaceAll (Char.ofNat 123 :: (n ++ [Char.ofNat 125])) v (flatten rest) :=
          replaceAll_head_match _ _ _ _
        rw [show tokenPat n = Char.ofNat 123 :: (n ++ [Char.ofNat 125]) from rfl, step]
        rw [show Char.ofNat 123 :: (n ++ [Char.ofNat 125]) = tokenPat n from rfl, ih hrest]
        simp [substOne, flatten]
      · obtain ⟨hn123, hn125⟩ : Char.ofNat 123 ∉ n ∧ Char.ofNat 125 ∉ n := hc
        show replaceAll (Char.ofNat 123 :: (m ++ [Char.ofNat 125])) v
          (Char.ofNat 123 :: (n ++ Char.ofNat 125 :: flatten rest)) = _
        rw [replaceAll_cons, if_neg (by
          have hlead : leadsWith (m ++ [Char.ofNat 125]) (n ++ Char.ofNat 125 :: flatten rest)
              = false :=
            leadsWith_name_ne (flatten rest) hm hn125 (fun h => hnm h.symm)
          simp [leadsWith, hlead])]
        have hmem : Char.ofNat 123 ∉ n ++ [Char.ofNat 125] := by
          intro h
          rcases List.mem_append.mp h with h | h
          · exact hn123 h
          · simp at h
        have step : replaceAll (Char.ofNat 123 :: (m ++ [Char.ofNat 125])) v
            ((n ++ [Char.ofNat 125]) ++ flatten rest) =
            (n ++ [Char.ofNat 125]) ++ replaceAll (Char.ofNat 123 :: (m ++ [Char.ofNat 125])) v
              (flatten rest) :=
          replaceAll_append_not_mem _ _ _ hmem _
        simp only [List.append_assoc, List.singleton_append] at step
        rw [step]
        rw [show Char.ofNat 123 :: (m ++ [Char.ofNat 125]) = tokenPat m from rfl, ih hrest]
        show Char.ofNat 123 :: (n ++ Char.ofNat 125 :: flatten (substOne m v rest)) =
          flatten (substOne m v (Chunk.hole n :: rest))
        simp [substOne, flatten, hnm]

theorem tplWF_substOne {v : List Char} (hv : Char.ofNat 123 ∉ v) (m : List Char)
    {tpl : List Chunk} (hw : tplWF tpl) : tplWF (substOne m v tpl) := by
  intro c hc
  rcases List.mem_map.mp hc with ⟨d, hd, rfl⟩
  have hwd := hw d hd
  cases d with
  | lit s => exact hwd
  | hole n =>
    by_cases hnm : n = m
    · simpa [substOne, hnm, chunkWF] using hv
    · simpa [substOne, hnm] using hwd

theorem substMap_nil (tpl : List Chunk) : substMap [] tpl = tpl := by
  induction tpl with
  | nil => rfl
  | cons c rest ih =>
    cases c with
    | lit s => simpa [substMap] using ih
    | hole n => simpa [substMap, List.lookup] using ih

theorem substMap_cons (m v : List Char) (toks : List (List Char × List Char))
    (tpl : List Chunk) :
    substMap toks (substOne m v tpl) = substMap ((m, v) :: toks) tpl := by
  induction tpl with
  | nil => rfl
  | cons c rest ih =>
    cases c with
    | lit s => simpa [substMap, substOne] using ih
    | hole n =>
      by_cases hnm : n = m
      · subst hnm
        simpa [substMap, substOne, List.lookup] using ih
      · have hbeq : (n == m) = false := by simpa using hnm
        simpa [substMap, substOne, hnm, List.lookup, hbeq] using ih

theorem applyTokens_flatten (tokens : List (List Char × List Char)) :
    ∀ tpl : List Chunk, tplWF tpl → (∀ nv ∈ tokens, tokWF nv) →
      applyTokens tokens (flatten tpl) = flatten (substMap tokens tpl) := by
  induction tokens with
  | nil =>
    intro tpl _ _
    rw [substMap_nil]
    rfl
  | cons nv rest ih =>
    intro tpl hw ht
    obtain ⟨m, v⟩ := nv
    have hTok : tokWF (m, v) := ht _ (List.mem_cons_self _ _)
    have hm125 : Char.ofNat 125 ∉ m := hTok.1.2
    have hv : Char.ofNat 123 ∉ v := hTok.2
    show applyTokens rest (replaceAll (tokenPat m) v (flatten tpl)) = _
    rw [replaceAll_flatten v hm125 tpl hw,
      ih (substOne m v tpl) (tplWF_substOne hv m hw)
        (fun x hx => ht x (List.mem_cons_of_mem _ hx)),
      substMap_cons]

theorem lookup_perm {l₁ l₂ : List (List Char × List Char)} (hp : l₁.Perm l₂) :
    (l₁.map Prod.fst).Nodup → ∀ k, List.lookup k l₁ = List.lookup k l₂ := by
  induction hp with
  | nil => intro _ _; rfl
  | cons x hp ih =>
    intro hn k
    obtain ⟨a, b⟩ := x
    have hn2 := hn
    simp only [List.map_cons, List.nodup_cons] at hn2
    by_cases hk : k = a
    · simp [List.lookup, hk]
    · have hbeq : (k == a) = false := by simpa using hk
      simp only [List.lookup, hbeq]
      exact ih hn2.2 k
  | swap x y l =>
    intro hn k
    obtain ⟨a, b⟩ := x
    obtain ⟨c, d⟩ := y
    have hn2 := hn
    simp only [List.map_cons, List.nodup_cons, List.mem_cons] at hn2
    have hne : c ≠ a := fun h => hn2.1 (Or.inl h)
    by_cases hkc : k = c
    · subst hkc
      have hbeq : (k == a) = false := by simpa using hne
      simp [List.lookup, hbeq]
    · by_cases hka : k = a
      · subst hka
        have hbeq : (k == c) = false := by simpa using hkc
        simp [List.lookup, hbeq]
      · have h1 : (k == a) = false := by simpa using hka
        have h2 : (k == c) = false := by simpa using hkc
        simp [List.lookup, h1, h2]
  | trans h₁ h₂ ih₁ ih₂ =>
    intro hn k
    have hn₂ := ((h₁.map Prod.fst).nodup_iff).mp hn
    rw [ih₁ hn k, ih₂ hn₂ k]

theorem applyTokens_id {tokens : List (List Char × List Char)} {doc : List Char}
    (h : ∀ nv ∈ tokens, occursIn (tokenPat nv.1) doc = false) :
    applyTokens tokens doc = doc := by
  induction tokens with
  | nil => rfl
  | cons nv rest ih =>
    show applyTokens rest (replaceAll (tokenPat nv.1) nv.2 doc) = doc
    rw [replaceAll_of_not_occurs _ (h nv (List.mem_cons_self _ _))]
    exact ih (fun x hx => h x (List.mem_cons_of_mem _ hx))

theorem occursIn_of_leadsWith {p s : List Char} (h : leadsWith p s = true) :
    occursIn p s = true := by
  cases s with
  | nil =>
    cases p with
    | nil => rfl
    | cons p0 pr => simp [leadsWith] at h
  | cons c rest => simp [occursIn_cons, h]

theorem occursIn_append_mid (p a b : List Char) : occursIn p (a ++ (p ++ b)) = true := by
  induction a with
  | nil => exact occursIn_of_leadsWith (leadsWith_self_append p b)
  | cons c a' ih => simp [occursIn_cons, ih]

theorem aggregate_go (cards : List Card) :
    ∀ a b : Nat,
      cards.foldl
        (fun acc c => (acc.1 + 1, if c.queue = Queue.Review then acc.2 + 1 else acc.2))
        (a, b) =
      (a + cards.length, b + List.countP (fun c => decide (c.queue = Queue.Review)) cards) := by
  induction cards with
  | nil => intro a b; simp
  | cons c cs ih =>
    intro a b
    rw [List.foldl_cons, ih, List.countP_cons]
    by_cases hc : c.queue = Queue.Review
    · simp [hc]
      omega
    · simp [hc]
      omega

theorem aggregate_eq (cards : List Card) :
    aggregate cards =
      (cards.length, List.countP (fun c => decide (c.queue = Queue.Review)) cards) := by
  have := aggregate_go cards 0 0
  simpa [aggregate] using this

theorem occursIn_append_left {p : List Char} (s : List Char) {t : List Char}
    (h : occursIn p t = true) : occursIn p (s ++ t) = true := by
  induction s with
  | nil => simpa using h
  | cons c s' ih => simp [occursIn_cons, ih]

theorem renderCard_isSome_iff (c : Card) :
    (renderCard c).isSome ↔ 3 ≤ c.fields.length := by
  rcases hf : c.fields with _ | ⟨f0, _ | ⟨f1, _ | ⟨f2, rest⟩⟩⟩ <;>
    simp [renderCard, hf]

theorem digitChar_ne_comma {k : Nat} (hk : k < 10) : Char.ofNat (48 + k) ≠ ',' := by
  interval_cases k <;> decide

theorem comma_not_mem_natCharsGo : ∀ f n, ',' ∉ natCharsGo f n := by
  intro f
  induction f with
  | zero => intro n; simp [natCharsGo]
  | succ f ih =>
    intro n
    by_cases hn : n < 10
    · simp only [natCharsGo, if_pos hn]
      simp
      exact fun h => digitChar_ne_comma hn h.symm
    · simp only [natCharsGo, if_neg hn]
      intro hmem
      rcases List.mem_append.mp hmem with h | h
      · exact ih (n / 10) h
      · simp at h
        exact digitChar_ne_comma (Nat.mod_lt n (by norm_num)) h.symm

theorem comma_not_mem_natChars (n : Nat) : ',' ∉ natChars n :=
  comma_not_mem_natCharsGo (n + 1) n

theorem natCharsGo_length_ge : ∀ f k n, n < f → 10 ^ k ≤ n →
    k + 1 ≤ (natCharsGo f n).length := by
  intro f
  induction f with
  | zero => intro k n hf _; omega
  | succ f ih =>
    intro k n hf hk
    cases k with
    | zero =>
      by_cases hn : n < 10 <;> simp [natCharsGo, hn]
    | succ k' =>
      have h10 : 10 ≤ n := by
        calc 10 = 10 ^ 1 := by norm_num
        _ ≤ 10 ^ (k' + 1) := Nat.pow_le_pow_right (by norm_num) (by omega)
        _ ≤ n := hk
      have hn : ¬ n < 10 := by omega
      simp only [natCharsGo, if_neg hn, List.length_append, List.length_singleton]
      have hdivlt : n / 10 < f := by
        have : n / 10 < n := Nat.div_lt_self (by omega) (by norm_num)
        omega
      have hdivge : 10 ^ k' ≤ n / 10 := by
        rw [Nat.le_div_iff_mul_le (by norm_num)]
        calc 10 ^ k' * 10 = 10 ^ (k' + 1) := (pow_succ 10 k').symm
        _ ≤ n := hk
      have := ih k' (n / 10) hdivlt hdivge
      omega

theorem natChars_length_ge_four {n : Nat} (h : 1000 ≤ n) : 4 ≤ (natChars n).length :=
  natCharsGo_length_ge (n + 1) 3 n (Nat.lt_succ_self n) (by norm_num; omega)

theorem comma_mem_groupRev {ds : List Char} (h : 4 ≤ ds.length) : ',' ∈ groupRev ds := by
  rcases ds with _ | ⟨a, _ | ⟨b, _ | ⟨c, _ | ⟨d, rest⟩⟩⟩⟩ <;> simp at h ⊢
  simp [groupRev]

theorem formatEn_ne_natChars {n : Nat} (h : 1000 ≤ n) : formatEn n ≠ natChars n := by
  intro heq
  have hmem : ',' ∈ formatEn n := by
    have hlen : 4 ≤ (natChars n).reverse.length := by
      simpa using natChars_length_ge_four h
    have := comma_mem_groupRev hlen
    simpa [formatEn] using this
  rw [heq] at hmem
  exact comma_not_mem_natChars n hmem

/-- C1: the state-code classification maps 0 to `New`, 1 and 3 to
`Learning`, 2 to `Review`, and fails (no `LearningState` is produced) on
every other code. -/
theorem queue_classification_spec (c : Nat) :
    (c = 0 → queueTryFrom c = some Queue.New) ∧
    ((c = 1 ∨ c = 3) → queueTryFrom c = some Queue.Learning) ∧
    (c = 2 → queueTryFrom c = some Queue.Review) ∧
    (c ≠ 0 → c ≠ 1 → c ≠ 2 → c ≠ 3 → queueTryFrom c = none) := by
  refine ⟨fun h => by subst h; rfl,
    fun h => by rcases h with h | h <;> subst h <;> rfl,
    fun h => by subst h; rfl,
    fun h0 h1 h2 h3 => ?_⟩
  rcases c with _ | _ | _ | _ | c
  · exact absurd rfl h0
  · exact absurd rfl h1
  · exact absurd rfl h2
  · exact absurd rfl h3
  · rfl

/-- Witness for C1 at the concrete codes 0, 3, 2 and 7. -/
theorem queue_classification_spec_witness :
    queueTryFrom 0 = some Queue.New ∧ queueTryFrom 3 = some Queue.Learning ∧
    queueTryFrom 2 = some Queue.Review ∧ queueTryFrom 7 = none :=
  ⟨(queue_classification_spec 0).1 rfl,
   (queue_classification_spec 3).2.1 (Or.inr rfl),
   (queue_classification_spec 2).2.2.1 rfl,
   (queue_classification_spec 7).2.2.2 (by decide) (by decide) (by decide) (by decide)⟩

/-- C2 counterexample: a raw record whose field string splits into a single
field.  Record extraction does **not** fail with a `MalformedRecord` error —
it succeeds and hands the 1-field card on; the failure (an out-of-bounds
index, modelled as `none`) only happens later, in the fragment renderer. -/
theorem extraction_no_field_check_cex :
    extractCard ⟨("a").data, 0, 5, 7⟩ = some ⟨[("a").data], Queue.New, 5, 7⟩ ∧
    renderCard ⟨[("a").data], Queue.New, 5, 7⟩ = none :=
  ⟨rfl, rfl⟩

/-- C2, amended: extraction itself performs no field-count check and
succeeds for every raw record with a valid state code, whatever the field
count; a record with fewer than 3 fields instead makes the fragment
renderer fault with an out-of-bounds index, and with 3 or more fields the
renderer succeeds. -/
theorem extraction_succeeds_render_faults (r : RawRecord)
    (h : (queueTryFrom r.queue).isSome) :
    ∃ c : Card, extractCard r = some c ∧ c.fields = splitOnChar sepChar r.flds ∧
      ((renderCard c).isSome ↔ 3 ≤ c.fields.length) := by
  rcases hq : queueTryFrom r.queue with _ | q
  · rw [hq] at h
    simp at h
  · exact ⟨⟨splitOnChar sepChar r.flds, q, r.reps, r.lapses⟩,
      by simp [extractCard, hq], rfl, renderCard_isSome_iff _⟩

/-- Witness for the amended C2 at a concrete 3-field record. -/
theorem extraction_succeeds_render_faults_witness :
    (queueTryFrom 2).isSome = true ∧
    (∃ c : Card,
      extractCard ⟨("a").data ++ sepChar :: (("b").data ++ sepChar :: ("c").data), 2, 1, 0⟩ =
        some c ∧
      c.fields = splitOnChar sepChar
        (("a").data ++ sepChar :: (("b").data ++ sepChar :: ("c").data)) ∧
      ((renderCard c).isSome ↔ 3 ≤ c.fields.length)) :=
  ⟨by decide,
   extraction_succeeds_render_faults
     ⟨("a").data ++ sepChar :: (("b").data ++ sepChar :: ("c").data), 2, 1, 0⟩ (by decide)⟩

/-- C3: the aggregation loop counts every card in `total` and exactly the
`Review`-queue cards in `learned`, hence `learned ≤ total`. -/
theorem aggregate_counts (cards : List Card) :
    (aggregate cards).1 = cards.length ∧
    (aggregate cards).2 = List.countP (fun c => decide (c.queue = Queue.Review)) cards ∧
    (aggregate cards).2 ≤ (aggregate cards).1 := by
  rw [aggregate_eq]
  exact ⟨rfl, rfl, List.countP_le_length _⟩

/-- C8: splitting a field string on the separator and rejoining with the
same separator reproduces the string (the claim's side condition — no
control characters other than the separator — is carried although the law
needs no such restriction). -/
theorem split_join_roundtrip (s : List Char)
    (h : ∀ c ∈ s, isCtrlChar c = true → c = sepChar) :
    joinSep sepChar (splitOnChar sepChar s) = s :=
  joinSep_splitOnChar sepChar s

/-- Witness for C8 on the concrete two-field string `"ab\x1fcd"`. -/
theorem split_join_roundtrip_witness :
    (∀ c ∈ ("ab").data ++ sepChar :: ("cd").data, isCtrlChar c = true → c = sepChar) ∧
    joinSep sepChar (splitOnChar sepChar (("ab").data ++ sepChar :: ("cd").data)) =
      ("ab").data ++ sepChar :: ("cd").data :=
  ⟨by decide, split_join_roundtrip _ (by decide)⟩

/-- C4 counterexample: on the empty card sequence the percentage is the NaN
of `0.0 / 0.0` and that NaN propagates into the rendered output — the
template engine substitutes the string `"NaN"` for the percentage token —
rather than any explicitly documented degenerate value being produced. -/
theorem percentage_nan_propagates_cex :
    aggregate [] = (0, 0) ∧
    learnedPercentage 0 0 = none ∧
    applyTokens (buildTokens 0 0 (learnedPercentage 0 0) [] (("ts").data))
      (tokenPat ("learned_percentage_pretty").data) = ("NaN").data := by
  refine ⟨rfl, rfl, ?_⟩
  decide

/-- C4, amended: the percentage is `learned / total * 100`; for `total > 0`
it is a finite value in `[0, 100]`; for `total = 0` no division fault is
raised but the value is NaN (`0.0 / 0.0`) and is rendered as the string
`"NaN"`, which does flow into the output document. -/
theorem percentage_bounds_and_nan (cards : List Card) :
    (0 < (aggregate cards).1 →
      learnedPercentage (aggregate cards).2 (aggregate cards).1 =
        some (((aggregate cards).2 : ℚ) / ((aggregate cards).1 : ℚ) * 100) ∧
      0 ≤ ((aggregate cards).2 : ℚ) / ((aggregate cards).1 : ℚ) * 100 ∧
      ((aggregate cards).2 : ℚ) / ((aggregate cards).1 : ℚ) * 100 ≤ 100) ∧
    ((aggregate cards).1 = 0 →
      learnedPercentage (aggregate cards).2 (aggregate cards).1 = none ∧
      prettyPct (learnedPercentage (aggregate cards).2 (aggregate cards).1) =
        ("NaN").data) := by
  constructor
  · intro hpos
    have hne : (aggregate cards).1 ≠ 0 := Nat.pos_iff_ne_zero.mp hpos
    refine ⟨by simp [learnedPercentage, hne], ?_, ?_⟩
    · positivity
    · have hle : (aggregate cards).2 ≤ (aggregate cards).1 := by
        rw [aggregate_eq]
        exact List.countP_le_length _
      have hcast : ((aggregate cards).2 : ℚ) ≤ ((aggregate cards).1 : ℚ) := by
        exact_mod_cast hle
      have hposc : (0 : ℚ) < ((aggregate cards).1 : ℚ) := by exact_mod_cast hpos
      have hdiv : ((aggregate cards).2 : ℚ) / ((aggregate cards).1 : ℚ) ≤ 1 :=
        (div_le_one hposc).mpr hcast
      calc ((aggregate cards).2 : ℚ) / ((aggregate cards).1 : ℚ) * 100
          ≤ 1 * 100 := mul_le_mul_of_nonneg_right hdiv (by norm_num)
        _ = 100 := by norm_num
  · intro hzero
    refine ⟨by simp [learnedPercentage, hzero], ?_⟩
    simp [learnedPercentage, hzero, prettyPct]

/-- Witness for the amended C4: a one-card deck in `Review` (percentage
100, within bounds) and the empty deck (NaN case). -/
theorem percentage_bounds_and_nan_witness :
    (0 < (aggregate [Card.mk [("a").data, ("b").data, ("c").data] Queue.Review 4 1]).1 ∧
      learnedPercentage
        (aggregate [Card.mk [("a").data, ("b").data, ("c").data] Queue.Review 4 1]).2
        (aggregate [Card.mk [("a").data, ("b").data, ("c").data] Queue.Review 4 1]).1 =
        some ((1 : ℚ) / (1 : ℚ) * 100)) ∧
    ((aggregate ([] : List Card)).1 = 0 ∧
      prettyPct (learnedPercentage (aggregate ([] : List Card)).2
        (aggregate ([] : List Card)).1) = ("NaN").data) :=
  ⟨⟨by decide,
    ((percentage_bounds_and_nan
      [Card.mk [("a").data, ("b").data, ("c").data] Queue.Review 4 1]).1 (by decide)).1⟩,
   ⟨rfl, ((percentage_bounds_and_nan ([] : List Card)).2 rfl).2⟩⟩

theorem substMap_eq_of_lookup {l₁ l₂ : List (List Char × List Char)}
    (h : ∀ k, List.lookup k l₁ = List.lookup k l₂) :
    ∀ tpl : List Chunk, substMap l₁ tpl = substMap l₂ tpl := by
  intro tpl
  induction tpl with
  | nil => rfl
  | cons c rest ih =>
    cases c with
    | lit s =>
      simp only [substMap, List.map_cons]
      simp only [substMap] at ih
      rw [ih]
    | hole n =>
      simp only [substMap, List.map_cons]
      simp only [substMap] at ih
      rw [h n, ih]

/-- C5: on a well-formed template (literal text and `\x7bname\x7d`
placeholders, names and values brace-free) the substitution loop replaces
every placeholder whose name the token map binds by its value, and leaves
every placeholder with no entry untouched — `substMap` is exactly that
simultaneous one-pass substitution. -/
theorem template_subst_spec (tpl : List Chunk)
    (tokens : List (List Char × List Char)) (hw : tplWF tpl)
    (ht : ∀ nv ∈ tokens, tokWF nv) :
    applyTokens tokens (flatten tpl) = flatten (substMap tokens tpl) :=
  applyTokens_flatten tokens tpl hw ht

/-- Witness for C5: the spec's own example — the template
`"{n_cards} and {unknown_token}"` with only `n_cards` bound to `"2"`
renders as `"2 and {unknown_token}"`. -/
theorem template_subst_spec_witness :
    applyTokens [(("n_cards").data, ("2").data)]
      (("{n_cards} and {unknown_token}").data) = ("2 and {unknown_token}").data := by
  have h := template_subst_spec
    [Chunk.hole ("n_cards").data, Chunk.lit (" and ").data,
      Chunk.hole ("unknown_token").data]
    [(("n_cards").data, ("2").data)] (by decide) (by decide)
  have e1 : flatten [Chunk.hole ("n_cards").data, Chunk.lit (" and ").data,
      Chunk.hole ("unknown_token").data] = ("{n_cards} and {unknown_token}").data := by
    decide
  have e2 : flatten (substMap [(("n_cards").data, ("2").data)]
      [Chunk.hole ("n_cards").data, Chunk.lit (" and ").data,
        Chunk.hole ("unknown_token").data]) = ("2 and {unknown_token}").data := by
    decide
  rw [e1, e2] at h
  exact h

/-- C6 counterexample: with the token map binding `a` to `"{b}"` and `b` to
`"X"`, the two application orders disagree on the template `"{a}"` — the
order is observable exactly when a value contains `\x7bother_token\x7d`-shaped
text. -/
theorem token_order_observable_cex :
    applyTokens [(("a").data, ("{b}").data), (("b").data, ("X").data)]
      (("{a}").data) = ("X").data ∧
    applyTokens [(("b").data, ("X").data), (("a").data, ("{b}").data)]
      (("{a}").data) = ("{b}").data ∧
    List.Perm [(("a").data, ("{b}").data), (("b").data, ("X").data)]
      [(("b").data, ("X").data), (("a").data, ("{b}").data)] ∧
    ("X").data ≠ ("{b}").data := by
  refine ⟨by decide, by decide, ?_, by decide⟩
  exact List.Perm.swap _ _ _

/-- C6, amended: the application order is *not* observable as long as no
token value can create or destroy a placeholder — on a well-formed template
with brace-free names and values and distinct token names, any two
application orders produce the same document; when a value does contain
`\x7bother_token\x7d`-shaped text the orders can differ (see the
counterexample). -/
theorem token_order_unobservable_wf (tpl : List Chunk)
    (l₁ l₂ : List (List Char × List Char)) (hw : tplWF tpl)
    (ht : ∀ nv ∈ l₁, tokWF nv) (hn : (l₁.map Prod.fst).Nodup)
    (hp : l₁.Perm l₂) :
    applyTokens l₁ (flatten tpl) = applyTokens l₂ (flatten tpl) := by
  have ht₂ : ∀ nv ∈ l₂, tokWF nv := fun nv hnv => ht nv (hp.mem_iff.mpr hnv)
  rw [applyTokens_flatten l₁ tpl hw ht, applyTokens_flatten l₂ tpl hw ht₂,
    substMap_eq_of_lookup (lookup_perm hp hn) tpl]

/-- Witness for the amended C6 at a concrete template and two concrete
orders of a two-token map with brace-free values. -/
theorem token_order_unobservable_wf_witness :
    applyTokens [(("a").data, ("1").data), (("b").data, ("2").data)]
      (flatten [Chunk.hole ("a").data, Chunk.lit ("-").data, Chunk.hole ("b").data]) =
    applyTokens [(("b").data, ("2").data), (("a").data, ("1").data)]
      (flatten [Chunk.hole ("a").data, Chunk.lit ("-").data, Chunk.hole ("b").data]) :=
  token_order_unobservable_wf
    [Chunk.hole ("a").data, Chunk.lit ("-").data, Chunk.hole ("b").data]
    [(("a").data, ("1").data), (("b").data, ("2").data)]
    [(("b").data, ("2").data), (("a").data, ("1").data)]
    (by decide) (by decide) (by decide) (List.Perm.swap _ _ _)

/-- C9: a template in which no bound token's placeholder occurs is left
unchanged by the substitution loop. -/
theorem subst_identity_no_placeholders (tokens : List (List Char × List Char))
    (doc : List Char) (h : ∀ nv ∈ tokens, occursIn (tokenPat nv.1) doc = false) :
    applyTokens tokens doc = doc :=
  applyTokens_id h

/-- Witness for C9 on a placeholder-free document. -/
theorem subst_identity_no_placeholders_witness :
    (∀ nv ∈ [(("n_cards").data, ("2").data), (("cards").data, ("x").data)],
      occursIn (tokenPat nv.1) (("a deck report").data) = false) ∧
    applyTokens [(("n_cards").data, ("2").data), (("cards").data, ("x").data)]
      (("a deck report").data) = ("a deck report").data :=
  ⟨by decide, subst_identity_no_placeholders _ _ (by decide)⟩

theorem renderCards_eq_join :
    ∀ cards : List Card, (∀ c ∈ cards, 3 ≤ c.fields.length) →
      ∃ frags : List (List Char),
        List.Forall₂ (fun c f => renderCard c = some f) cards frags ∧
        renderCards cards = some frags.flatten := by
  intro cards
  induction cards with
  | nil => intro _; exact ⟨[], List.Forall₂.nil, rfl⟩
  | cons c cs ih =>
    intro h
    have hc : 3 ≤ c.fields.length := h c (List.mem_cons_self _ _)
    have hs : (renderCard c).isSome := (renderCard_isSome_iff c).mpr hc
    obtain ⟨f, hf⟩ := Option.isSome_iff_exists.mp hs
    obtain ⟨frags, hfa, hrc⟩ := ih (fun d hd => h d (List.mem_cons_of_mem _ hd))
    refine ⟨f :: frags, List.Forall₂.cons hf hfa, ?_⟩
    simp [renderCards, hf, hrc]

theorem renderCard_fields_verbatim (c : Card) (f0 f1 f2 : List Char)
    (rest : List (List Char)) (hfield : c.fields = f0 :: f1 :: f2 :: rest)
    (f : List Char) (hf : renderCard c = some f) :
    occursIn (fragA ++ f0) f = true ∧ occursIn f1 f = true ∧
      occursIn f2 f = true := by
  simp only [renderCard, hfield, Option.some.injEq] at hf
  subst hf
  refine ⟨?_, ?_, ?_⟩
  · simp only [List.append_assoc]
    rw [← List.append_assoc]
    exact occursIn_of_leadsWith (leadsWith_self_append _ _)
  · simp only [List.append_assoc]
    apply occursIn_append_left
    apply occursIn_append_left
    apply occursIn_append_left
    apply occursIn_append_left
    apply occursIn_append_left
    apply occursIn_append_left
    apply occursIn_append_left
    exact occursIn_of_leadsWith (leadsWith_self_append _ _)
  · simp only [List.append_assoc]
    apply occursIn_append_left
    apply occursIn_append_left
    apply occursIn_append_left
    apply occursIn_append_left
    apply occursIn_append_left
    apply occursIn_append_left
    apply occursIn_append_left
    apply occursIn_append_left
    apply occursIn_append_left
    exact occursIn_of_leadsWith (leadsWith_self_append _ _)

/-- C7: on cards with at least 3 fields the renderer produces exactly one
fragment per card, concatenated in input order, and each fragment embeds the
card's primary term, annotation and translation verbatim — in particular the
lookup link is the raw term appended to the URL text, with no escaping or
percent-encoding. -/
theorem render_fragments_spec (cards : List Card)
    (h : ∀ c ∈ cards, 3 ≤ c.fields.length) :
    (∃ frags : List (List Char),
      List.Forall₂ (fun c f => renderCard c = some f) cards frags ∧
      renderCards cards = some frags.flatten) ∧
    (∀ c : Card, ∀ f0 f1 f2 : List Char, ∀ rest : List (List Char),
      c.fields = f0 :: f1 :: f2 :: rest → ∀ f : List Char,
        renderCard c = some f →
          occursIn (fragA ++ f0) f = true ∧ occursIn f1 f = true ∧
          occursIn f2 f = true) :=
  ⟨renderCards_eq_join cards h,
   fun c f0 f1 f2 rest hfield f hf =>
     renderCard_fields_verbatim c f0 f1 f2 rest hfield f hf⟩

/-- Witness for C7 on the spec's two-card scenario (one `Review`, one
`New` card, three fields each). -/
theorem render_fragments_spec_witness :
    (∀ c ∈ [Card.mk [("日本").data, ("にほん").data, ("Japan").data] Queue.Review 5 0,
        Card.mk [("猫").data, ("ねこ").data, ("cat").data] Queue.New 0 0],
      3 ≤ c.fields.length) ∧
    (∃ frags : List (List Char),
      List.Forall₂ (fun c f => renderCard c = some f)
        [Card.mk [("日本").data, ("にほん").data, ("Japan").data] Queue.Review 5 0,
          Card.mk [("猫").data, ("ねこ").data, ("cat").data] Queue.New 0 0] frags ∧
      renderCards
        [Card.mk [("日本").data, ("にほん").data, ("Japan").data] Queue.Review 5 0,
          Card.mk [("猫").data, ("ねこ").data, ("cat").data] Queue.New 0 0] =
        some frags.flatten) :=
  ⟨by decide,
   (render_fragments_spec
     [Card.mk [("日本").data, ("にほん").data, ("Japan").data] Queue.Review 5 0,
       Card.mk [("猫").data, ("ねこ").data, ("cat").data] Queue.New 0 0]
     (by decide)).1⟩

/-- C10 (implicit): the token map renders `n_cards` (and `n_learned`) with
English-locale thousands separators while the console summary prints the
same count as plain decimal digits, so from 1000 cards on the two renderings
of the same count differ. -/
theorem locale_vs_console_format (n_learned n_cards : Nat) (pct : Option ℚ)
    (cardsHtml now : List Char) (h : 1000 ≤ n_cards) :
    List.lookup ("n_cards").data (buildTokens n_learned n_cards pct cardsHtml now) =
      some (formatEn n_cards) ∧
    occursIn (natChars n_cards) (consoleLine n_learned n_cards pct) = true ∧
    formatEn n_cards ≠ natChars n_cards := by
  refine ⟨rfl, ?_, formatEn_ne_natChars h⟩
  simp only [consoleLine, List.append_assoc]
  apply occursIn_append_left
  apply occursIn_append_left
  apply occursIn_append_left
  exact occursIn_of_leadsWith (leadsWith_self_append _ _)

/-- Witness for C10 at the count 1000: the token value is `"1,000"`, the
console rendering is comma-free, and the two differ. -/
theorem locale_vs_console_format_witness :
    List.lookup ("n_cards").data (buildTokens 5 1000 none [] []) =
      some (("1,000").data) ∧
    occursIn (natChars 1000) (consoleLine 5 1000 none) = true ∧
    ("1,000").data ≠ natChars 1000 := by
  have h := locale_vs_console_format 5 1000 none [] [] (by decide)
  have e : formatEn 1000 = ("1,000").data := by decide
  rw [e] at h
  exact h
